import Mathlib

/-!
# Verification of the symbolic-address resolver of `src/backend/src/util.rs`

This file gives a shallow embedding of the pointer-chain resolver:

* `resolve_single_level_address` (util.rs lines 128-166): lexes a flat
  expression with the regex `([-+])?(?:\s*)((?:\w|-)+(?:\.\w+)*|\d+|0x[\da-fA-F]+)`
  (via `captures_iter`, i.e. successive leftmost matches with Perl-style
  leftmost-first alternation and greedy repetition), resolves each captured
  operand either against the module table (case-insensitive ASCII name
  comparison, first match in table order) or as a hexadecimal literal after
  `trim_start_matches("0x")`, and folds the values left to right with
  `wrapping_add` / `wrapping_sub` on `u64`; the first operand seeds the
  accumulator and its sign capture is ignored.

* `resolve_nested_address` (util.rs lines 91-126): tokenizes the input with
  the regex `(\[)|(\])|([^\[\]]+)` into bracket-open, bracket-close and
  maximal bracket-free runs, and runs a stack machine: on `[` a non-empty
  accumulator is pushed and a literal `[` is appended to the (fresh)
  accumulator; on `]` a non-empty accumulator is evaluated with
  `resolve_single_level_address`, dereferenced with `read_memory_64`
  (modelled by an abstract `reader : Nat -> Except String Nat`, standing for
  `fun a => read_memory_64 pid a`), the result is rendered as `0x{:X}`
  (uppercase hex) and appended to the popped pending string (or becomes the
  whole accumulator when the stack is empty), and a literal `]` is appended;
  bracket-free runs are appended verbatim.  After the scan the accumulator
  is evaluated once more.

Strings are modelled as `List Char`; machine integers (`u64`) as `Nat` with
explicit wrapping `% 2^64` where the Rust code wraps.  The character classes
`\w` and `\s` of the Rust regex crate are modelled by their ASCII parts
(`[0-9A-Za-z_]` and the ASCII whitespace characters), which is exact for all
ASCII inputs.

The operand regex is embedded as a deterministic one-pass scanner
(`lexStep`/`lexGo`).  The translation from the regex is as follows.  A match
attempt at position `i` first tries to take `[-+]` as the sign capture, then
skips `\s*`, and then group 2 must match.  Because the first alternative
`(?:\w|-)+(?:\.\w+)*` can start with every character the alternatives
`\d+` and `0x[\da-fA-F]+` can start with (digits are word characters),
leftmost-first alternation means group 2 always matches greedily by the
first alternative: a maximal run of word characters and hyphens followed by
greedily repeated `.`-plus-word-run segments.  If group 2 cannot match, the
optional sign backtracks to empty, so a lone `-` (whose group-2 first
alternative accepts hyphens) becomes a sign-less operand of its own, while a
failed attempt advances the start position by one character.  In
particular, after a space a following `-` is consumed by `\s*`-then-group-2
of the match starting at the space (leftmost wins), so it starts an operand
rather than acting as a sign: the scanner therefore distinguishes a fresh
position (`outside`) from a position inside a speculative `\s*` (`spaced`).
-/

deriving instance DecidableEq for Except

/-- ASCII part of the regex class `\w`: letters, digits and underscore. -/
def isWordChar (c : Char) : Bool :=
  c.isAlphanum || c = '_'

/-- Characters that can occur in the `(?:\w|-)+` run of operand group 2. -/
def isPartChar (c : Char) : Bool :=
  isWordChar c || c = '-'

/-- ASCII part of the regex class `\s` (space and the control whitespace). -/
def isSpaceChar (c : Char) : Bool :=
  c = ' ' || (9 ≤ c.toNat && c.toNat ≤ 13)

/-- Numeric value of a hexadecimal digit, as in Rust `char::to_digit(16)`:
code points 48-57 are the decimal digits, 97-102 and 65-70 the lower- and
uppercase letters `a`-`f`. -/
def hexDigitVal (c : Char) : Option Nat :=
  let n := c.toNat
  if 48 ≤ n ∧ n ≤ 57 then some (n - 48)
  else if 97 ≤ n ∧ n ≤ 102 then some (n - 87)
  else if 65 ≤ n ∧ n ≤ 70 then some (n - 55)
  else none

/-- The modulus of `u64` arithmetic. -/
def u64Mod : Nat := 18446744073709551616

/-- Accumulating digit loop of `u64::from_str_radix(_, 16)`. -/
def parseHexAux : List Char → Nat → Option Nat
  | [], acc => some acc
  | c :: cs, acc =>
    match hexDigitVal c with
    | none => none
    | some d => parseHexAux cs (acc * 16 + d)

/-- `u64::from_str_radix(s, 16)`: empty input fails, one leading `+` is
allowed (a `-` is not a digit, so it fails, as for Rust unsigned types), the
digits are folded in base 16, and a value that does not fit in `u64` fails.
Rust checks overflow at each step; since the accumulator is monotone, the
single final bound check is equivalent. -/
def fromStrRadix16 (s : List Char) : Option Nat :=
  match s with
  | [] => none
  | c :: rest =>
    if (if c = '+' then rest else c :: rest) = [] then none
    else
      match parseHexAux (if c = '+' then rest else c :: rest) 0 with
      | none => none
      | some v => if v < u64Mod then some v else none

/-- `str::trim_start_matches("0x")`: removes every leading repetition of the
two-character pattern `0x`. -/
def trimStart0x : List Char → List Char
  | c1 :: c2 :: rest =>
    if c1 = '0' ∧ c2 = 'x' then trimStart0x rest else c1 :: c2 :: rest
  | cs => cs

/-- Uppercase hexadecimal digit character (for `format!("{:X}", _)`). -/
def hexChar : Nat → Char
  | 0 => '0' | 1 => '1' | 2 => '2' | 3 => '3'
  | 4 => '4' | 5 => '5' | 6 => '6' | 7 => '7'
  | 8 => '8' | 9 => '9' | 10 => 'A' | 11 => 'B'
  | 12 => 'C' | 13 => 'D' | 14 => 'E' | _ => 'F'

/-- Fuel-driven digit expansion for `format!("{:X}", n)`; `fuel` bounds the
number of digits, and 64 digits cover every value below `16 ^ 64`. -/
def toHexAux : Nat → Nat → List Char
  | 0, _ => []
  | fuel + 1, n =>
    if n < 16 then [hexChar n]
    else toHexAux fuel (n / 16) ++ [hexChar (n % 16)]

/-- `format!("{:X}", n)`: uppercase hexadecimal rendering, no leading zeros,
and `0` renders as `0`. -/
def toHexUpper (n : Nat) : List Char := toHexAux 64 n

/-- One captured operand of the flat-expression regex: the optional sign
capture (group 1) and the operand text (group 2). -/
structure Tok where
  sign : Option Char
  part : List Char
  deriving DecidableEq, Repr

/-- Scanner state for the operand regex (see the header comment):
`outside` is a fresh start position; `spaced` is inside the `\s*` of a
speculative sign-less match begun at an earlier whitespace character;
`pending s` has consumed the sign `s` and is inside its `\s*`;
`inPart` is inside the `(?:\w|-)+` run; `afterDot` has tentatively read a
`.` that still needs a word character; `inSeg` is inside a `\.\w+` segment
(the accumulator already contains the committed segment text). -/
inductive LexState where
  | outside : LexState
  | spaced : LexState
  | pending : Char → LexState
  | inPart : Option Char → List Char → LexState
  | afterDot : Option Char → List Char → LexState
  | inSeg : Option Char → List Char → LexState
  deriving DecidableEq, Repr

/-- State entered when scanning restarts at a character after a token was
emitted ending just before it; identical to the `outside` transition. -/
def lexRestart (c : Char) : LexState :=
  if c = '+' || c = '-' then .pending c
  else if isSpaceChar c then .spaced
  else if isPartChar c then .inPart none [c]
  else .outside

/-- One transition of the operand scanner: tokens emitted and next state. -/
def lexStep : LexState → Char → List Tok × LexState
  | .outside, c =>
    if c = '+' || c = '-' then ([], .pending c)
    else if isSpaceChar c then ([], .spaced)
    else if isPartChar c then ([], .inPart none [c])
    else ([], .outside)
  | .spaced, c =>
    if c = '+' then ([], .pending '+')
    else if isSpaceChar c then ([], .spaced)
    else if isPartChar c then ([], .inPart none [c])
    else ([], .outside)
  | .pending s, c =>
    if isSpaceChar c then ([], .pending s)
    else if isPartChar c then ([], .inPart (some s) [c])
    else
      (if s = '-' then [⟨none, ['-']⟩] else [],
       if c = '+' then .pending '+' else .outside)
  | .inPart s acc, c =>
    if isPartChar c then ([], .inPart s (acc ++ [c]))
    else if c = '.' then ([], .afterDot s acc)
    else ([⟨s, acc⟩], lexRestart c)
  | .afterDot s acc, c =>
    if isWordChar c then ([], .inSeg s (acc ++ ['.', c]))
    else ([⟨s, acc⟩], lexRestart c)
  | .inSeg s acc, c =>
    if isWordChar c then ([], .inSeg s (acc ++ [c]))
    else if c = '.' then ([], .afterDot s acc)
    else ([⟨s, acc⟩], lexRestart c)

/-- Tokens emitted when the input ends in the given scanner state: a
pending `-` whose group 2 never started falls back to the sign-less operand
`-`; a pending `+` matches nothing; a started operand is emitted as
captured so far (a trailing tentative dot is dropped). -/
def lexFlush : LexState → List Tok
  | .outside => []
  | .spaced => []
  | .pending s => if s = '-' then [⟨none, ['-']⟩] else []
  | .inPart s acc => [⟨s, acc⟩]
  | .afterDot s acc => [⟨s, acc⟩]
  | .inSeg s acc => [⟨s, acc⟩]

/-- Run the operand scanner over the input. -/
def lexGo : LexState → List Char → List Tok
  | st, [] => lexFlush st
  | st, c :: cs => (lexStep st c).1 ++ lexGo (lexStep st c).2 cs

/-- All captures of `([-+])?(?:\s*)((?:\w|-)+(?:\.\w+)*|\d+|0x[\da-fA-F]+)`
over the input, in order (Rust `captures_iter`). -/
def scanTokens (addr : List Char) : List Tok := lexGo .outside addr

/-- One entry of the module table.  In the source the table is a
`Vec<serde_json::Value>`; `m["modulename"].as_str()` is `none` when the
field is missing or not a string, and `m["base"].as_u64()` is `none` when
the field is missing or not an unsigned 64-bit integer (so a present base
is below `2 ^ 64`). -/
structure ModuleRec where
  modulename : Option (List Char)
  base : Option Nat
  deriving DecidableEq, Repr

/-- ASCII lowercasing of one character (Rust `to_ascii_lowercase`). -/
def asciiLower (c : Char) : Char :=
  if 'A' ≤ c && c ≤ 'Z' then Char.ofNat (c.toNat + 32) else c

/-- Rust `str::eq_ignore_ascii_case`. -/
def eqIgnoreAsciiCase : List Char → List Char → Bool
  | [], [] => true
  | a :: as', b :: bs' => asciiLower a = asciiLower b && eqIgnoreAsciiCase as' bs'
  | _, _ => false

/-- The predicate of the `modules.iter().find(..)` call: the record has a
string `modulename` equal to the operand text up to ASCII case. -/
def moduleNameMatches (part : List Char) (m : ModuleRec) : Bool :=
  match m.modulename with
  | some name => eqIgnoreAsciiCase part name
  | none => false

/-- Value of one operand (util.rs lines 141-151): the base of the first
module whose name matches (error `Invalid base address` when its base is
not a `u64`), otherwise hexadecimal parsing after stripping leading `0x`
repetitions (error `Invalid number: {part}` when that fails). -/
def tokenValue (part : List Char) (modules : List ModuleRec) : Except String Nat :=
  match modules.find? (moduleNameMatches part) with
  | some m =>
    match m.base with
    | some b => .ok b
    | none => .error "Invalid base address"
  | none =>
    match fromStrRadix16 (trimStart0x part) with
    | some v => .ok v
    | none => .error ("Invalid number: " ++ String.mk part)

/-- The reduction loop of `resolve_single_level_address` (util.rs lines
134-163): the first operand seeds the accumulator (its sign capture is not
consulted), later operands wrap-add or wrap-subtract according to the sign
capture defaulted to `+`; the catch-all arm mirrors the source's
`Invalid operation` error. -/
def evalToks (modules : List ModuleRec) : List Tok → Nat → Bool → Except String Nat
  | [], acc, _ => .ok acc
  | t :: ts, acc, first =>
    match tokenValue t.part modules with
    | .error e => .error e
    | .ok v =>
      if first then evalToks modules ts v false
      else
        let op := t.sign.getD '+'
        if op = '+' then evalToks modules ts ((acc + v) % u64Mod) false
        else if op = '-' then evalToks modules ts ((acc + (u64Mod - v % u64Mod)) % u64Mod) false
        else .error ("Invalid operation: " ++ String.mk [op])

/-- `resolve_single_level_address` (util.rs lines 128-166). -/
def resolve_single_level_address (addr : List Char) (modules : List ModuleRec) :
    Except String Nat :=
  evalToks modules (scanTokens addr) 0 true

/-- Tokens of the nested-resolver regex `(\[)|(\])|([^\[\]]+)`: bracket
open, bracket close, and maximal bracket-free runs. -/
inductive NTok where
  | lb : NTok
  | rb : NTok
  | lit : List Char → NTok
  deriving DecidableEq, Repr

/-- Tokenization of the input by `(\[)|(\])|([^\[\]]+)` under
`captures_iter`: every character is covered, bracket-free runs maximal. -/
def nestedTokens : List Char → List NTok
  | [] => []
  | c :: rest =>
    if c = '[' then .lb :: nestedTokens rest
    else if c = ']' then .rb :: nestedTokens rest
    else
      match nestedTokens rest with
      | .lit s :: ts => .lit (c :: s) :: ts
      | ts => .lit [c] :: ts

/-- Mutable state of `resolve_nested_address`: the pending-prefix stack and
the accumulator string `current_expr`. -/
structure NState where
  stack : List (List Char)
  current : List Char
  deriving DecidableEq, Repr

/-- One iteration of the `captures_iter` loop of `resolve_nested_address`
(util.rs lines 101-123).  `reader` stands for `fun a => read_memory_64 pid a`. -/
def nestedStep (reader : Nat → Except String Nat) (modules : List ModuleRec)
    (st : NState) : NTok → Except String NState
  | .lb =>
    let st1 : NState := if st.current = [] then st else ⟨st.current :: st.stack, []⟩
    .ok ⟨st1.stack, st1.current ++ ['[']⟩
  | .rb =>
    if st.current = [] then .ok ⟨st.stack, st.current ++ [']']⟩
    else
      match resolve_single_level_address st.current modules with
      | .error e => .error e
      | .ok innerValue =>
        match reader innerValue with
        | .error e => .error e
        | .ok memoryValue =>
          match st.stack with
          | prev :: rest =>
            .ok ⟨rest, (prev ++ ('0' :: 'x' :: toHexUpper memoryValue)) ++ [']']⟩
          | [] => .ok ⟨[], ('0' :: 'x' :: toHexUpper memoryValue) ++ [']']⟩
  | .lit s => .ok ⟨st.stack, st.current ++ s⟩

/-- The full scan loop of `resolve_nested_address`. -/
def runNested (reader : Nat → Except String Nat) (modules : List ModuleRec) :
    NState → List NTok → Except String NState
  | st, [] => .ok st
  | st, t :: ts =>
    match nestedStep reader modules st t with
    | .error e => .error e
    | .ok st' => runNested reader modules st' ts

/-- `resolve_nested_address` (util.rs lines 91-126), with the memory read
capability abstracted as `reader` (which models `read_memory_64 pid`, so
its successful values are below `2 ^ 64`). -/
def resolve_nested_address (reader : Nat → Except String Nat)
    (nested_addr : List Char) (modules : List ModuleRec) : Except String Nat :=
  match runNested reader modules ⟨[], []⟩ (nestedTokens nested_addr) with
  | .error e => .error e
  | .ok st => resolve_single_level_address st.current modules

/-- `n` copies of the two-character pattern `0x`. -/
def repeat0x : Nat → List Char
  | 0 => []
  | n + 1 => '0' :: 'x' :: repeat0x n

/-- Bracket-nesting depth tracker: starting from depth `d`, consume the
token list, failing (`none`) when a close bracket appears at depth zero.
`runDepth ts 0 = some 0` states that the brackets of `ts` are balanced, and
`runDepth p 0 = some dp` computes the nesting depth `dp` reached after a
prefix `p`. -/
def runDepth : List NTok → Nat → Option Nat
  | [], d => some d
  | .lb :: ts, d => runDepth ts (d + 1)
  | .rb :: ts, d =>
    match d with
    | 0 => none
    | d' + 1 => runDepth ts d'
  | .lit _ :: ts, d => runDepth ts d

/-- A well-formed sign capture: absent, `+`, or `-`. -/
def signOK (t : Tok) : Prop :=
  t.sign = none ∨ t.sign = some '+' ∨ t.sign = some '-'

/-- Scanner states whose recorded sign information is well formed. -/
def stateOK : LexState → Prop
  | .outside => True
  | .spaced => True
  | .pending s => s = '+' ∨ s = '-'
  | .inPart s _ => s = none ∨ s = some '+' ∨ s = some '-'
  | .afterDot s _ => s = none ∨ s = some '+' ∨ s = some '-'
  | .inSeg s _ => s = none ∨ s = some '+' ∨ s = some '-'

/-- A closing bracket can take part in no operand match, so seeing one is
the same as ending the input: it flushes the scanner state. -/
theorem lexStep_rb_flush (st : LexState) :
    (lexStep st ']').1 ++ lexFlush (lexStep st ']').2 = lexFlush st := by
  have h1 : isSpaceChar ']' = false := by decide
  have h2 : isPartChar ']' = false := by decide
  have h3 : isWordChar ']' = false := by decide
  have h4 : ((']' : Char) = '+' || (']' : Char) = '-') = false := by decide
  have h5 : ¬ ((']' : Char) = '+') := by decide
  have h6 : ¬ ((']' : Char) = '.') := by decide
  cases st <;> simp [lexStep, lexFlush, lexRestart, h1, h2, h3, h4, h5, h6]

/-- A trailing `]` does not change the captured operands. -/
theorem lexGo_append_rb (l : List Char) : ∀ st : LexState,
    lexGo st (l ++ [']']) = lexGo st l := by
  induction l with
  | nil =>
    intro st
    show (lexStep st ']').1 ++ lexGo (lexStep st ']').2 [] = lexFlush st
    exact lexStep_rb_flush st
  | cons c cs ih =>
    intro st
    show (lexStep st c).1 ++ lexGo (lexStep st c).2 (cs ++ [']'])
        = (lexStep st c).1 ++ lexGo (lexStep st c).2 cs
    rw [ih]

/-- A leading `[` is skipped by the operand scanner. -/
theorem scanTokens_lb_cons (cs : List Char) :
    scanTokens ('[' :: cs) = scanTokens cs := by
  show ([] : List Tok) ++ lexGo LexState.outside cs = lexGo LexState.outside cs
  simp

/-- A trailing `]` does not change a flat evaluation. -/
theorem resolve_single_append_rb (l : List Char) (modules : List ModuleRec) :
    resolve_single_level_address (l ++ [']']) modules =
      resolve_single_level_address l modules := by
  unfold resolve_single_level_address scanTokens
  rw [lexGo_append_rb]

/-- A leading `[` does not change a flat evaluation. -/
theorem resolve_single_lb_cons (l : List Char) (modules : List ModuleRec) :
    resolve_single_level_address ('[' :: l) modules =
      resolve_single_level_address l modules := by
  unfold resolve_single_level_address
  rw [scanTokens_lb_cons]

/-- Inside a `(?:\w|-)+` run, a run of part characters (none of them a dot)
is absorbed into the operand accumulator. -/
theorem lexGo_part_run (R : List Char) :
    ∀ (s : Option Char) (acc rest : List Char),
    (∀ c ∈ R, isPartChar c = true ∧ c ≠ '.') →
    lexGo (.inPart s acc) (R ++ rest) = lexGo (.inPart s (acc ++ R)) rest := by
  induction R with
  | nil => intro s acc rest _; simp
  | cons c cs ih =>
    intro s acc rest h
    obtain ⟨hc, _⟩ := h c (List.mem_cons_self c cs)
    show (lexStep (.inPart s acc) c).1 ++ lexGo (lexStep (.inPart s acc) c).2 (cs ++ rest)
        = lexGo (.inPart s (acc ++ c :: cs)) rest
    rw [show lexStep (.inPart s acc) c = ([], .inPart s (acc ++ [c])) by
      simp [lexStep, hc]]
    rw [List.nil_append, ih s (acc ++ [c]) rest (fun d hd => h d (List.mem_cons_of_mem c hd))]
    simp


/-- The digit fold splits over list append. -/
theorem parseHexAux_append (l1 l2 : List Char) : ∀ acc : Nat,
    parseHexAux (l1 ++ l2) acc =
      match parseHexAux l1 acc with
      | none => none
      | some a => parseHexAux l2 a := by
  induction l1 with
  | nil => intro acc; rfl
  | cons c cs ih =>
    intro acc
    have e1 : parseHexAux (c :: (cs ++ l2)) acc =
        match hexDigitVal c with
        | none => none
        | some d => parseHexAux (cs ++ l2) (acc * 16 + d) := rfl
    have e2 : parseHexAux (c :: cs) acc =
        match hexDigitVal c with
        | none => none
        | some d => parseHexAux cs (acc * 16 + d) := rfl
    rw [List.cons_append, e1, e2]
    cases hexDigitVal c with
    | none => rfl
    | some d => exact ih (acc * 16 + d)

/-- Every uppercase hexadecimal digit character parses back to its value. -/
theorem hexVal_hexChar : ∀ k : Nat, k < 16 → hexDigitVal (hexChar k) = some k := by
  decide

/-- Uppercase hexadecimal digit characters are operand part characters and
are not dots. -/
theorem hexChar_part : ∀ k : Nat, k < 16 →
    isPartChar (hexChar k) = true ∧ hexChar k ≠ '.' := by
  decide

/-- No hexadecimal digit character is a plus sign. -/
theorem hexChar_ne_plus : ∀ k : Nat, k < 16 → hexChar k ≠ '+' := by
  decide

/-- Every character of a hexadecimal rendering is a digit character. -/
theorem toHexAux_mem : ∀ (fuel n : Nat) (c : Char), c ∈ toHexAux fuel n →
    ∃ k : Nat, k < 16 ∧ c = hexChar k := by
  intro fuel
  induction fuel with
  | zero => intro n c h; simp [toHexAux] at h
  | succ f ih =>
    intro n c h
    unfold toHexAux at h
    by_cases hn : n < 16
    · rw [if_pos hn] at h
      simp at h
      exact ⟨n, hn, h⟩
    · rw [if_neg hn] at h
      rcases List.mem_append.1 h with h' | h'
      · exact ih (n / 16) c h'
      · simp at h'
        exact ⟨n % 16, Nat.mod_lt n (by norm_num), h'⟩

/-- A hexadecimal rendering with positive fuel starts with a digit
character. -/
theorem toHexAux_head : ∀ (fuel n : Nat), 0 < fuel →
    ∃ (k : Nat) (rest : List Char), k < 16 ∧ toHexAux fuel n = hexChar k :: rest := by
  intro fuel
  induction fuel with
  | zero => intro n h; omega
  | succ f ih =>
    intro n _
    unfold toHexAux
    by_cases hn : n < 16
    · rw [if_pos hn]
      exact ⟨n, [], hn, rfl⟩
    · rw [if_neg hn]
      by_cases hf : 0 < f
      · obtain ⟨k, rest, hk, heq⟩ := ih (n / 16) hf
        exact ⟨k, rest ++ [hexChar (n % 16)], hk, by rw [heq]; rfl⟩
      · have hf0 : f = 0 := by omega
        subst hf0
        exact ⟨n % 16, [], Nat.mod_lt n (by norm_num), rfl⟩

/-- Parsing inverts printing, given enough fuel. -/
theorem parseHexAux_toHexAux : ∀ (fuel n : Nat), n < 16 ^ fuel →
    parseHexAux (toHexAux fuel n) 0 = some n := by
  intro fuel
  induction fuel with
  | zero =>
    intro n h
    simp at h
    subst h
    rfl
  | succ f ih =>
    intro n h
    unfold toHexAux
    by_cases hn : n < 16
    · rw [if_pos hn]
      have e : parseHexAux [hexChar n] 0 =
          match hexDigitVal (hexChar n) with
          | none => none
          | some d => parseHexAux [] (0 * 16 + d) := rfl
      rw [e, hexVal_hexChar n hn]
      show some (0 * 16 + n) = some n
      simp
    · rw [if_neg hn]
      rw [parseHexAux_append]
      have hdiv : n / 16 < 16 ^ f := by
        rw [pow_succ] at h
        omega
      rw [ih (n / 16) hdiv]
      have e : parseHexAux [hexChar (n % 16)] (n / 16) =
          match hexDigitVal (hexChar (n % 16)) with
          | none => none
          | some d => parseHexAux [] (n / 16 * 16 + d) := rfl
      show parseHexAux [hexChar (n % 16)] (n / 16) = some n
      rw [e, hexVal_hexChar (n % 16) (Nat.mod_lt n (by norm_num))]
      show some (n / 16 * 16 + n % 16) = some n
      congr 1
      omega

/-- Round trip through the `u64` parser: rendering a `u64` value in
uppercase hexadecimal and parsing it back yields the value. -/
theorem fromStrRadix16_toHexUpper (v : Nat) (hv : v < u64Mod) :
    fromStrRadix16 (toHexUpper v) = some v := by
  obtain ⟨k, rest, hk, heq⟩ := toHexAux_head 64 v (by norm_num)
  have hparse : parseHexAux (toHexUpper v) 0 = some v := by
    apply parseHexAux_toHexAux
    have hle : u64Mod ≤ 16 ^ 64 := by norm_num [u64Mod]
    omega
  have hne : hexChar k ≠ '+' := hexChar_ne_plus k hk
  have heq' : toHexUpper v = hexChar k :: rest := heq
  rw [heq'] at hparse ⊢
  show (if (if hexChar k = '+' then rest else hexChar k :: rest) = [] then none
        else match parseHexAux (if hexChar k = '+' then rest else hexChar k :: rest) 0 with
             | none => none
             | some w => if w < u64Mod then some w else none) = some v
  rw [if_neg hne]
  rw [if_neg (List.cons_ne_nil (hexChar k) rest)]
  rw [hparse]
  show (if v < u64Mod then some v else none) = some v
  rw [if_pos hv]

/-- A string of hexadecimal digit characters contains no `x`, so stripping
leading `0x` patterns leaves it unchanged. -/
theorem trimStart0x_hexdigits (d : List Char)
    (h : ∀ c ∈ d, (hexDigitVal c).isSome = true) : trimStart0x d = d := by
  match d with
  | [] => rfl
  | [a] => rfl
  | a :: b :: t =>
    have hb : b ≠ 'x' := by
      intro hbx
      have := h b (by simp)
      rw [hbx] at this
      exact absurd this (by decide)
    have e : trimStart0x (a :: b :: t) =
        if a = '0' ∧ b = 'x' then trimStart0x t else a :: b :: t := rfl
    rw [e, if_neg (fun hab => hb hab.2)]

/-- Stripping `0x` patterns removes every leading copy of `0x`. -/
theorem trimStart0x_repeat : ∀ (n : Nat) (d : List Char),
    trimStart0x (repeat0x n ++ d) = trimStart0x d := by
  intro n
  induction n with
  | zero => intro d; rfl
  | succ k ih =>
    intro d
    show trimStart0x ('0' :: 'x' :: (repeat0x k ++ d)) = trimStart0x d
    have e : trimStart0x ('0' :: 'x' :: (repeat0x k ++ d)) =
        if ('0' : Char) = '0' ∧ ('x' : Char) = 'x' then trimStart0x (repeat0x k ++ d)
        else '0' :: 'x' :: (repeat0x k ++ d) := rfl
    rw [e, if_pos ⟨rfl, rfl⟩]
    exact ih d

/-- All characters of a hexadecimal rendering are part characters and none
is a dot. -/
theorem toHexUpper_part (m : Nat) :
    ∀ c ∈ toHexUpper m, isPartChar c = true ∧ c ≠ '.' := by
  intro c hc
  obtain ⟨k, hk, hck⟩ := toHexAux_mem 64 m c hc
  rw [hck]
  exact hexChar_part k hk

/-- The rendering `0x{:X}` of a value lexes as one sign-less operand. -/
theorem scanTokens_0x_hex (m : Nat) :
    scanTokens ('0' :: 'x' :: toHexUpper m) = [⟨none, '0' :: 'x' :: toHexUpper m⟩] := by
  show lexGo LexState.outside ('0' :: 'x' :: toHexUpper m) = _
  rw [show lexGo LexState.outside ('0' :: 'x' :: toHexUpper m)
      = lexGo (.inPart none ['0', 'x']) (toHexUpper m) from rfl]
  rw [show toHexUpper m = toHexUpper m ++ [] from (List.append_nil _).symm]
  rw [lexGo_part_run (toHexUpper m) none ['0', 'x'] [] (toHexUpper_part m)]
  simp [lexGo, lexFlush]

/-- Evaluating the rendering `0x{:X}` of a `u64` value against an empty
module table gives the value back. -/
theorem resolve_single_0x_hex (m : Nat) (hm : m < u64Mod) :
    resolve_single_level_address ('0' :: 'x' :: toHexUpper m) [] = .ok m := by
  unfold resolve_single_level_address
  rw [scanTokens_0x_hex]
  show (match tokenValue ('0' :: 'x' :: toHexUpper m) [] with
        | Except.error e => Except.error e
        | Except.ok v => evalToks [] [] v false) = Except.ok m
  have htok : tokenValue ('0' :: 'x' :: toHexUpper m) [] = .ok m := by
    unfold tokenValue
    show (match fromStrRadix16 (trimStart0x ('0' :: 'x' :: toHexUpper m)) with
          | some v => Except.ok v
          | none => Except.error ("Invalid number: " ++ String.mk ('0' :: 'x' :: toHexUpper m))) = .ok m
    have htrim : trimStart0x ('0' :: 'x' :: toHexUpper m) = toHexUpper m := by
      rw [show ('0' :: 'x' :: toHexUpper m) = repeat0x 1 ++ toHexUpper m from rfl,
        trimStart0x_repeat]
      apply trimStart0x_hexdigits
      intro c hc
      obtain ⟨k, hk, hck⟩ := toHexAux_mem 64 m c hc
      rw [hck, hexVal_hexChar k hk]
      rfl
    rw [htrim, fromStrRadix16_toHexUpper m hm]
  rw [htok]
  rfl

/-- Every literal run produced by the bracket tokenizer is non-empty. -/
theorem nestedTokens_lit_ne_nil : ∀ (cs : List Char) (s : List Char),
    NTok.lit s ∈ nestedTokens cs → s ≠ [] := by
  intro cs
  induction cs with
  | nil => intro s h; simp [nestedTokens] at h
  | cons c rest ih =>
    intro s hmem
    have e : nestedTokens (c :: rest) =
        if c = '[' then .lb :: nestedTokens rest
        else if c = ']' then .rb :: nestedTokens rest
        else match nestedTokens rest with
          | .lit s' :: ts => .lit (c :: s') :: ts
          | ts => .lit [c] :: ts := rfl
    rw [e] at hmem
    by_cases h1 : c = '['
    · rw [if_pos h1] at hmem
      rcases List.mem_cons.1 hmem with h | h
      · exact absurd h (by simp)
      · exact ih s h
    · rw [if_neg h1] at hmem
      by_cases h2 : c = ']'
      · rw [if_pos h2] at hmem
        rcases List.mem_cons.1 hmem with h | h
        · exact absurd h (by simp)
        · exact ih s h
      · rw [if_neg h2] at hmem
        cases hnt : nestedTokens rest with
        | nil =>
          rw [hnt] at hmem
          have hs : s = [c] := by
            rcases List.mem_cons.1 hmem with h | h
            · injection h
            · exact absurd h (by simp)
          rw [hs]
          simp
        | cons t ts =>
          cases t with
          | lit s' =>
            rw [hnt] at hmem
            rcases List.mem_cons.1 hmem with h | h
            · have : s = c :: s' := by injection h
              rw [this]
              simp
            · exact ih s (hnt ▸ List.mem_cons_of_mem _ h)
          | lb =>
            rw [hnt] at hmem
            rcases List.mem_cons.1 hmem with h | h
            · have : s = [c] := by injection h
              rw [this]
              simp
            · exact ih s (hnt ▸ h)
          | rb =>
            rw [hnt] at hmem
            rcases List.mem_cons.1 hmem with h | h
            · have : s = [c] := by injection h
              rw [this]
              simp
            · exact ih s (hnt ▸ h)

/-- A non-empty bracket-free run prepended to input whose tokenization does
not start with a literal run tokenizes to one literal run followed by the
rest. -/
theorem nestedTokens_run : ∀ (R rest : List Char), R ≠ [] →
    (∀ c ∈ R, c ≠ '[' ∧ c ≠ ']') →
    (∀ s ts, nestedTokens rest ≠ NTok.lit s :: ts) →
    nestedTokens (R ++ rest) = NTok.lit R :: nestedTokens rest := by
  intro R
  induction R with
  | nil => intro rest h; exact absurd rfl h
  | cons c R' ih =>
    intro rest _ hbr hrest
    obtain ⟨hc1, hc2⟩ := hbr c (List.mem_cons_self c R')
    have e : nestedTokens (c :: (R' ++ rest)) =
        if c = '[' then .lb :: nestedTokens (R' ++ rest)
        else if c = ']' then .rb :: nestedTokens (R' ++ rest)
        else match nestedTokens (R' ++ rest) with
          | .lit s' :: ts => .lit (c :: s') :: ts
          | ts => .lit [c] :: ts := rfl
    rw [List.cons_append, e, if_neg hc1, if_neg hc2]
    by_cases hR' : R' = []
    · subst hR'
      rw [List.nil_append]
      cases hnt : nestedTokens rest with
      | nil => rfl
      | cons t ts =>
        cases t with
        | lit s' => exact absurd hnt (hrest s' ts)
        | lb => rfl
        | rb => rfl
    · rw [ih rest hR' (fun d hd => hbr d (List.mem_cons_of_mem c hd)) hrest]

/-- Unfolding equation for one step of the nested scan loop. -/
theorem runNested_cons (reader : Nat → Except String Nat) (modules : List ModuleRec)
    (st : NState) (t : NTok) (ts : List NTok) :
    runNested reader modules st (t :: ts) =
      match nestedStep reader modules st t with
      | .error e => .error e
      | .ok st' => runNested reader modules st' ts := rfl

/-- Invariant of the nested scan: starting from a state whose stack depth
is at most the tracked bracket depth (and whose stack is empty whenever the
accumulator is), a successful run of a token list with non-empty literal
runs ends in a state whose stack depth is at most the final bracket depth,
again with an empty stack whenever the accumulator is empty. -/
theorem runNested_inv (reader : Nat → Except String Nat) (modules : List ModuleRec) :
    ∀ (ts : List NTok) (d d' : Nat) (st st' : NState),
    runDepth ts d = some d' →
    (∀ s, NTok.lit s ∈ ts → s ≠ []) →
    st.stack.length ≤ d →
    (st.current = [] → st.stack = []) →
    runNested reader modules st ts = .ok st' →
    st'.stack.length ≤ d' ∧ (st'.current = [] → st'.stack = []) := by
  intro ts
  induction ts with
  | nil =>
    intro d d' st st' hdep hlit hlen hcur hrun
    have hd : d = d' := by
      have : some d = some d' := hdep
      injection this
    have hst : st = st' := by
      have : (Except.ok st : Except String NState) = .ok st' := hrun
      injection this
    subst hd
    subst hst
    exact ⟨hlen, hcur⟩
  | cons t ts ih =>
    intro d d' st st' hdep hlit hlen hcur hrun
    have hlit' : ∀ s, NTok.lit s ∈ ts → s ≠ [] :=
      fun s hs => hlit s (List.mem_cons_of_mem t hs)
    cases t with
    | lb =>
      have hdep' : runDepth ts (d + 1) = some d' := hdep
      by_cases hc : st.current = []
      · have hstep : nestedStep reader modules st .lb = .ok ⟨st.stack, st.current ++ ['[']⟩ := by
          simp [nestedStep, hc]
        rw [runNested_cons, hstep] at hrun
        have hrun' : runNested reader modules ⟨st.stack, st.current ++ ['[']⟩ ts = .ok st' := hrun
        refine ih (d + 1) d' ⟨st.stack, st.current ++ ['[']⟩ st' hdep' hlit' ?_ ?_ hrun'
        · exact le_trans hlen (Nat.le_succ d)
        · intro h
          simp at h
      · have hstep : nestedStep reader modules st .lb = .ok ⟨st.current :: st.stack, ['[']⟩ := by
          simp [nestedStep, hc]
        rw [runNested_cons, hstep] at hrun
        have hrun' : runNested reader modules ⟨st.current :: st.stack, ['[']⟩ ts = .ok st' := hrun
        refine ih (d + 1) d' ⟨st.current :: st.stack, ['[']⟩ st' hdep' hlit' ?_ ?_ hrun'
        · exact Nat.succ_le_succ hlen
        · intro h
          simp at h
    | rb =>
      cases d with
      | zero => exact absurd hdep (by simp [runDepth])
      | succ dd =>
        have hdep' : runDepth ts dd = some d' := hdep
        by_cases hc : st.current = []
        · have hstep : nestedStep reader modules st .rb = .ok ⟨st.stack, st.current ++ [']']⟩ := by
            simp [nestedStep, hc]
          rw [runNested_cons, hstep] at hrun
          have hrun' : runNested reader modules ⟨st.stack, st.current ++ [']']⟩ ts = .ok st' := hrun
          refine ih dd d' _ st' hdep' hlit' ?_ (by intro h; simp [hc] at h) hrun'
          rw [hcur hc]
          exact Nat.zero_le dd
        · cases hres : resolve_single_level_address st.current modules with
          | error e =>
            have hstep : nestedStep reader modules st .rb = .error e := by
              simp [nestedStep, hc, hres]
            rw [runNested_cons, hstep] at hrun
            have : (Except.error e : Except String NState) = .ok st' := hrun
            exact absurd this (by simp)
          | ok a =>
            cases hread : reader a with
            | error e =>
              have hstep : nestedStep reader modules st .rb = .error e := by
                simp [nestedStep, hc, hres, hread]
              rw [runNested_cons, hstep] at hrun
              have : (Except.error e : Except String NState) = .ok st' := hrun
              exact absurd this (by simp)
            | ok v =>
              cases hstk : st.stack with
              | nil =>
                have hstep : nestedStep reader modules st .rb =
                    .ok ⟨[], ('0' :: 'x' :: toHexUpper v) ++ [']']⟩ := by
                  simp [nestedStep, hc, hres, hread, hstk]
                rw [runNested_cons, hstep] at hrun
                have hrun' : runNested reader modules
                    ⟨[], ('0' :: 'x' :: toHexUpper v) ++ [']']⟩ ts = .ok st' := hrun
                refine ih dd d' ⟨[], ('0' :: 'x' :: toHexUpper v) ++ [']']⟩ st' hdep' hlit' ?_ ?_ hrun'
                · simp
                · intro h
                  simp at h
              | cons p rest =>
                have hstep : nestedStep reader modules st .rb =
                    .ok ⟨rest, (p ++ ('0' :: 'x' :: toHexUpper v)) ++ [']']⟩ := by
                  simp [nestedStep, hc, hres, hread, hstk]
                rw [runNested_cons, hstep] at hrun
                have hrun' : runNested reader modules
                    ⟨rest, (p ++ ('0' :: 'x' :: toHexUpper v)) ++ [']']⟩ ts = .ok st' := hrun
                refine ih dd d' ⟨rest, (p ++ ('0' :: 'x' :: toHexUpper v)) ++ [']']⟩ st' hdep' hlit' ?_ ?_ hrun'
                · show rest.length ≤ dd
                  rw [hstk] at hlen
                  simp at hlen
                  omega
                · intro h
                  simp at h
    | lit s =>
      have hdep' : runDepth ts d = some d' := hdep
      have hs : s ≠ [] := hlit s (List.mem_cons_self _ _)
      have hstep : nestedStep reader modules st (.lit s) = .ok ⟨st.stack, st.current ++ s⟩ := rfl
      rw [runNested_cons, hstep] at hrun
      have hrun' : runNested reader modules ⟨st.stack, st.current ++ s⟩ ts = .ok st' := hrun
      refine ih d d' ⟨st.stack, st.current ++ s⟩ st' hdep' hlit' hlen ?_ hrun'
      intro h
      have h' : st.current ++ s = [] := h
      exact absurd (List.append_eq_nil.1 h').2 hs

/-- Restarting the scan at a character yields a well-formed state. -/
theorem lexRestart_stateOK (c : Char) : stateOK (lexRestart c) := by
  unfold lexRestart
  split
  · rename_i h
    simp only [stateOK]
    simpa using h
  · split
    · trivial
    · split
      · simp [stateOK]
      · trivial

/-- One scanner transition preserves state well-formedness and emits only
tokens with well-formed signs. -/
theorem lexStep_stateOK : ∀ (st : LexState) (c : Char), stateOK st →
    stateOK (lexStep st c).2 ∧ ∀ t ∈ (lexStep st c).1, signOK t := by
  intro st c h
  have hre : stateOK (lexRestart c) := lexRestart_stateOK c
  cases st <;> simp only [lexStep] <;> (try split_ifs) <;>
    simp_all [stateOK, signOK, lexRestart]

/-- Flushing a well-formed state emits only tokens with well-formed signs. -/
theorem lexFlush_signOK : ∀ st : LexState, stateOK st →
    ∀ t ∈ lexFlush st, signOK t := by
  intro st h
  cases st <;> simp only [lexFlush] <;> (try split_ifs) <;>
    simp_all [stateOK, signOK]

/-- Scanning from a well-formed state yields only well-formed signs. -/
theorem lexGo_signOK : ∀ (cs : List Char) (st : LexState), stateOK st →
    ∀ t ∈ lexGo st cs, signOK t := by
  intro cs
  induction cs with
  | nil => exact fun st h => lexFlush_signOK st h
  | cons c cs ih =>
    intro st h t ht
    obtain ⟨h2, h1⟩ := lexStep_stateOK st c h
    rcases List.mem_append.1 ht with hm | hm
    · exact h1 t hm
    · exact ih (lexStep st c).2 h2 t hm

/-- Every captured operand has sign capture absent, `+`, or `-`. -/
theorem scanTokens_signOK (addr : List Char) : ∀ t ∈ scanTokens addr, signOK t :=
  lexGo_signOK addr .outside trivial

/-- The only errors an operand lookup can produce. -/
theorem tokenValue_error_shape (part : List Char) (modules : List ModuleRec) (e : String)
    (h : tokenValue part modules = .error e) :
    e = "Invalid base address" ∨ ∃ p : List Char, e = "Invalid number: " ++ String.mk p := by
  unfold tokenValue at h
  cases hf : modules.find? (moduleNameMatches part) with
  | some m =>
    rw [hf] at h
    have h2 : (match m.base with
        | some b => (Except.ok b : Except String Nat)
        | none => Except.error "Invalid base address") = .error e := h
    cases hb : m.base with
    | some b =>
      rw [hb] at h2
      have h' : (Except.ok b : Except String Nat) = .error e := h2
      exact absurd h' (by simp)
    | none =>
      rw [hb] at h2
      have h' : (Except.error "Invalid base address" : Except String Nat) = .error e := h2
      left
      injection h' with h''
      exact h''.symm
  | none =>
    rw [hf] at h
    have h2 : (match fromStrRadix16 (trimStart0x part) with
        | some v => (Except.ok v : Except String Nat)
        | none => Except.error ("Invalid number: " ++ String.mk part)) = .error e := h
    cases hp : fromStrRadix16 (trimStart0x part) with
    | some v =>
      rw [hp] at h2
      have h' : (Except.ok v : Except String Nat) = .error e := h2
      exact absurd h' (by simp)
    | none =>
      rw [hp] at h2
      have h' : (Except.error ("Invalid number: " ++ String.mk part) : Except String Nat)
          = .error e := h2
      right
      refine ⟨part, ?_⟩
      injection h' with h''
      exact h''.symm

/-- The reduction loop only surfaces operand-lookup errors when every sign
capture is well formed: the catch-all `Invalid operation` arm is dead. -/
theorem evalToks_error_shape (modules : List ModuleRec) : ∀ (ts : List Tok) (acc : Nat)
    (first : Bool) (e : String), (∀ t ∈ ts, signOK t) →
    evalToks modules ts acc first = .error e →
    e = "Invalid base address" ∨ ∃ p : List Char, e = "Invalid number: " ++ String.mk p := by
  intro ts
  induction ts with
  | nil =>
    intro acc first e _ h
    have h' : (Except.ok acc : Except String Nat) = .error e := h
    exact absurd h' (by simp)
  | cons t ts ih =>
    intro acc first e hsign h
    have hs : signOK t := hsign t (List.mem_cons_self t ts)
    have hrest : ∀ t' ∈ ts, signOK t' := fun t' ht' => hsign t' (List.mem_cons_of_mem t ht')
    have e1 : evalToks modules (t :: ts) acc first =
        match tokenValue t.part modules with
        | .error e' => .error e'
        | .ok v =>
          if first then evalToks modules ts v false
          else
            let op := t.sign.getD '+'
            if op = '+' then evalToks modules ts ((acc + v) % u64Mod) false
            else if op = '-' then
              evalToks modules ts ((acc + (u64Mod - v % u64Mod)) % u64Mod) false
            else .error ("Invalid operation: " ++ String.mk [op]) := rfl
    rw [e1] at h
    cases htv : tokenValue t.part modules with
    | error e' =>
      rw [htv] at h
      have h' : (Except.error e' : Except String Nat) = .error e := h
      injection h' with h''
      exact h'' ▸ tokenValue_error_shape t.part modules e' htv
    | ok v =>
      rw [htv] at h
      cases first with
      | true =>
        have h' : evalToks modules ts v false = .error e := h
        exact ih v false e hrest h'
      | false =>
        rcases hs with h0 | h0 | h0
        · rw [h0] at h
          have h' : evalToks modules ts ((acc + v) % u64Mod) false = .error e := h
          exact ih _ false e hrest h'
        · rw [h0] at h
          have h' : evalToks modules ts ((acc + v) % u64Mod) false = .error e := h
          exact ih _ false e hrest h'
        · rw [h0] at h
          have h' : evalToks modules ts ((acc + (u64Mod - v % u64Mod)) % u64Mod) false
              = .error e := h
          exact ih _ false e hrest h'

/-- String append acts on the underlying character lists. -/
theorem strData_append (a b : String) : (a ++ b).data = a.data ++ b.data := rfl

/-- Taking a short enough chunk of an appended list only sees the left part. -/
theorem take_append_left : ∀ (l1 l2 : List Char) (n : Nat), n ≤ l1.length →
    (l1 ++ l2).take n = l1.take n := by
  intro l1
  induction l1 with
  | nil =>
    intro l2 n h
    simp at h
    subst h
    rfl
  | cons a t ih =>
    intro l2 n h
    cases n with
    | zero => rfl
    | succ m =>
      rw [List.cons_append, List.take_succ_cons, List.take_succ_cons,
        ih l2 m (Nat.le_of_succ_le_succ (by simpa using h))]

/-- The `Invalid operation` message differs from the two operand-lookup
messages, whatever the tails are. -/
theorem invalidOp_ne (s : String) :
    ("Invalid operation: " ++ s ≠ "Invalid base address") ∧
    ∀ p : List Char, "Invalid operation: " ++ s ≠ "Invalid number: " ++ String.mk p := by
  constructor
  · intro h
    have hd := congrArg String.data h
    rw [strData_append] at hd
    have h9 := congrArg (List.take 9) hd
    rw [take_append_left _ _ 9 (by decide)] at h9
    exact absurd h9 (by decide)
  · intro p h
    have hd := congrArg String.data h
    rw [strData_append, strData_append] at hd
    have h9 := congrArg (List.take 9) hd
    rw [take_append_left _ _ 9 (by decide), take_append_left _ _ 9 (by decide)] at h9
    exact absurd h9 (by decide)

/-- Claim C1, counterexample: resolving `[]` DOES invoke the memory reader
(the open bracket marker makes the accumulator non-empty at bracket-close,
so the accumulator `[` is evaluated to address 0 and dereferenced).  With a
reader that always fails, resolution of `[]` fails, while resolving the
empty string yields 0 — so the two do not agree. -/
theorem C1_counterexample :
    resolve_nested_address (fun _ => .error "read failed") ['[', ']'] [] =
      .error "read failed" ∧
    resolve_single_level_address [] [] = .ok 0 ∧
    resolve_nested_address (fun _ => .error "read failed") ['[', ']'] [] ≠
      resolve_single_level_address [] [] := by
  refine ⟨by decide, by decide, by decide⟩

/-- Claim C1, amended: resolving `[]` invokes the memory reader exactly at
address 0 (the empty accumulator evaluates to 0) and returns the 64-bit
value read there; it agrees with resolving the empty string only when that
value is 0.  For every reader that returns `v` at address 0, resolving `[]`
against an empty module table yields `v`. -/
theorem C1_amended (reader : Nat → Except String Nat) (v : Nat) (hv : v < u64Mod)
    (hr : reader 0 = .ok v) :
    resolve_nested_address reader ['[', ']'] [] = .ok v := by
  unfold resolve_nested_address
  have hrun : runNested reader [] ⟨[], []⟩ (nestedTokens ['[', ']']) =
      .ok ⟨[], ('0' :: 'x' :: toHexUpper v) ++ [']']⟩ := by
    show (match nestedStep reader [] ⟨[], []⟩ .lb with
          | Except.error e => Except.error e
          | Except.ok st' => runNested reader [] st' [NTok.rb]) = _
    rw [show nestedStep reader [] ⟨[], []⟩ .lb = .ok ⟨[], ['[']⟩ from by simp [nestedStep]]
    show (match nestedStep reader [] ⟨[], ['[']⟩ .rb with
          | Except.error e => Except.error e
          | Except.ok st' => runNested reader [] st' []) = _
    have hstep2 : nestedStep reader [] ⟨[], ['[']⟩ .rb =
        .ok ⟨[], ('0' :: 'x' :: toHexUpper v) ++ [']']⟩ := by
      simp [nestedStep, hr, show resolve_single_level_address ['['] [] = .ok 0 from by decide]
    rw [hstep2]
    rfl
  rw [hrun]
  show resolve_single_level_address (('0' :: 'x' :: toHexUpper v) ++ [']']) [] = .ok v
  rw [resolve_single_append_rb]
  exact resolve_single_0x_hex v hv

/-- Claim C1, witness: the amended statement instantiated with a reader
mapping address 0 to 5. -/
theorem C1_witness :
    (5 : Nat) < u64Mod ∧
    (fun a : Nat => if a = 0 then (.ok 5 : Except String Nat) else .error "x") 0 = .ok 5 ∧
    resolve_nested_address (fun a : Nat => if a = 0 then .ok 5 else .error "x")
      ['[', ']'] [] = .ok 5 :=
  ⟨by decide, by decide, C1_amended _ 5 (by decide) (by decide)⟩

/-- Claim C2, counterexample: under the claim's reading (strip at most one
`0x` prefix, then error when the remainder is not valid hexadecimal), the
token `0x0x10` would have remainder `0x10`, which is not valid hexadecimal,
so an `Invalid number` error would be required; the code instead strips
every leading `0x` repetition and succeeds with 16. -/
theorem C2_counterexample :
    resolve_single_level_address ['0', 'x', '0', 'x', '1', '0'] [] = .ok 16 ∧
    resolve_single_level_address ['0', 'x', '0', 'x', '1', '0'] [] ≠
      .error ("Invalid number: " ++ String.mk ['0', 'x', '0', 'x', '1', '0']) := by
  refine ⟨by decide, by decide⟩

/-- Claim C2, amended: a non-module operand is interpreted by stripping
EVERY leading repetition of `0x` and parsing the remainder as base-16
digits (so digit runs that look decimal are read as hex, e.g. `10` is 16);
when that parse fails (or its value exceeds the `u64` range) the function
returns the error `Invalid number:` naming the full operand text. -/
theorem C2_amended (modules : List ModuleRec) (addr : List Char) (sign : Option Char)
    (part : List Char) (hlex : scanTokens addr = [⟨sign, part⟩])
    (hmod : modules.find? (moduleNameMatches part) = none) :
    (∀ v : Nat, fromStrRadix16 (trimStart0x part) = some v →
      resolve_single_level_address addr modules = .ok v) ∧
    (fromStrRadix16 (trimStart0x part) = none →
      resolve_single_level_address addr modules =
        .error ("Invalid number: " ++ String.mk part)) := by
  constructor
  · intro v hv
    unfold resolve_single_level_address
    rw [hlex]
    show (match tokenValue part modules with
          | Except.error e => Except.error e
          | Except.ok w => evalToks modules [] w false) = Except.ok v
    have htv : tokenValue part modules = .ok v := by
      have h2 : tokenValue part modules =
          (match fromStrRadix16 (trimStart0x part) with
           | some w => (Except.ok w : Except String Nat)
           | none => Except.error ("Invalid number: " ++ String.mk part)) := by
        unfold tokenValue
        rw [hmod]
      rw [h2, hv]
    rw [htv]
    rfl
  · intro hv
    unfold resolve_single_level_address
    rw [hlex]
    show (match tokenValue part modules with
          | Except.error e => Except.error e
          | Except.ok w => evalToks modules [] w false) =
        Except.error ("Invalid number: " ++ String.mk part)
    have htv : tokenValue part modules = .error ("Invalid number: " ++ String.mk part) := by
      have h2 : tokenValue part modules =
          (match fromStrRadix16 (trimStart0x part) with
           | some w => (Except.ok w : Except String Nat)
           | none => Except.error ("Invalid number: " ++ String.mk part)) := by
        unfold tokenValue
        rw [hmod]
      rw [h2, hv]
    rw [htv]

/-- Claim C2, witness: the amended statement at the decimal-looking literal
`10` (which resolves to 16) and at the invalid operand `zz` (which produces
the error naming the text). -/
theorem C2_witness :
    scanTokens ['1', '0'] = [⟨none, ['1', '0']⟩] ∧
    resolve_single_level_address ['1', '0'] [] = .ok 16 ∧
    resolve_single_level_address ['z', 'z'] [] =
      .error ("Invalid number: " ++ String.mk ['z', 'z']) :=
  ⟨by decide,
   (C2_amended [] ['1', '0'] none ['1', '0'] (by decide) rfl).1 16 (by decide),
   (C2_amended [] ['z', 'z'] none ['z', 'z'] (by decide) rfl).2 (by decide)⟩

/-- Claim C3: with module table `[(lib.so, 0x1000)]` and a reader returning
0x2000 at 0x1010 and 0x3000 at 0x2020, resolving `[[lib.so+0x10]+0x20]`
yields 0x3000. -/
theorem C3_double_nesting :
    resolve_nested_address
      (fun a : Nat => if a = 0x1010 then .ok 0x2000
        else if a = 0x2020 then .ok 0x3000 else .error "unmapped")
      "[[lib.so+0x10]+0x20]".toList
      [⟨some "lib.so".toList, some 0x1000⟩] = .ok 0x3000 := by
  decide

/-- Claim C4: prefix preservation.  For every bracket-free literal prefix
`P` and bracket-free inner expression `X` whose flat evaluation is the
address `a`, if the reader returns `v` at `a` then resolving `P+[X]` gives
the same result as the flat evaluation of `P+` followed by the rendering
`0x{:X}` of `v`. -/
theorem C4_prefix_preserved (reader : Nat → Except String Nat)
    (modules : List ModuleRec) (P X : List Char) (a v : Nat)
    (hP : ∀ c ∈ P, c ≠ '[' ∧ c ≠ ']')
    (hX : ∀ c ∈ X, c ≠ '[' ∧ c ≠ ']')
    (ha : resolve_single_level_address X modules = .ok a)
    (hread : reader a = .ok v) :
    resolve_nested_address reader (P ++ '+' :: '[' :: (X ++ [']'])) modules =
      resolve_single_level_address (P ++ '+' :: '0' :: 'x' :: toHexUpper v) modules := by
  have hPp : ∀ c ∈ P ++ ['+'], c ≠ '[' ∧ c ≠ ']' := by
    intro c hc
    rcases List.mem_append.1 hc with h | h
    · exact hP c h
    · simp at h
      rw [h]
      exact ⟨by decide, by decide⟩
  have hhead : ∀ (s : List Char) (ts : List NTok),
      nestedTokens ('[' :: (X ++ [']'])) ≠ NTok.lit s :: ts := by
    intro s ts hcon
    have e : nestedTokens ('[' :: (X ++ [']'])) = .lb :: nestedTokens (X ++ [']']) := rfl
    rw [e] at hcon
    exact absurd hcon (by simp)
  have htoks : nestedTokens ((P ++ ['+']) ++ ('[' :: (X ++ [']']))) =
      NTok.lit (P ++ ['+']) :: NTok.lb :: nestedTokens (X ++ [']']) := by
    rw [nestedTokens_run (P ++ ['+']) ('[' :: (X ++ [']'])) (by simp) hPp hhead]
    rfl
  have hmid : runNested reader modules ⟨[P ++ ['+']], ['[']⟩ (nestedTokens (X ++ [']']))
      = .ok ⟨[], ((P ++ ['+']) ++ ('0' :: 'x' :: toHexUpper v)) ++ [']']⟩ := by
    by_cases hXnil : X = []
    · subst hXnil
      show (match nestedStep reader modules ⟨[P ++ ['+']], ['[']⟩ .rb with
            | Except.error e => Except.error e
            | Except.ok st' => runNested reader modules st' []) = _
      have hres : resolve_single_level_address ['['] modules = .ok a := by
        rw [resolve_single_lb_cons]
        exact ha
      rw [show nestedStep reader modules ⟨[P ++ ['+']], ['[']⟩ .rb =
          .ok ⟨[], ((P ++ ['+']) ++ ('0' :: 'x' :: toHexUpper v)) ++ [']']⟩ from by
        simp [nestedStep, hres, hread]]
      rfl
    · rw [nestedTokens_run X [']'] hXnil hX
        (by intro s ts hcon; exact absurd hcon (by simp [nestedTokens]))]
      show (match nestedStep reader modules ⟨[P ++ ['+']], ['[']⟩ (.lit X) with
            | Except.error e => Except.error e
            | Except.ok st' => runNested reader modules st' [NTok.rb]) = _
      rw [show nestedStep reader modules ⟨[P ++ ['+']], ['[']⟩ (.lit X) =
          .ok ⟨[P ++ ['+']], ['['] ++ X⟩ from rfl]
      show (match nestedStep reader modules ⟨[P ++ ['+']], ['['] ++ X⟩ .rb with
            | Except.error e => Except.error e
            | Except.ok st' => runNested reader modules st' []) = _
      have hres : resolve_single_level_address ('[' :: X) modules = .ok a := by
        rw [resolve_single_lb_cons]
        exact ha
      rw [show nestedStep reader modules ⟨[P ++ ['+']], ['['] ++ X⟩ .rb =
          .ok ⟨[], ((P ++ ['+']) ++ ('0' :: 'x' :: toHexUpper v)) ++ [']']⟩ from by
        simp [nestedStep, hres, hread]]
      rfl
  unfold resolve_nested_address
  rw [show P ++ '+' :: '[' :: (X ++ [']']) = (P ++ ['+']) ++ ('[' :: (X ++ [']'])) by simp]
  rw [htoks]
  have hrun1 : runNested reader modules ⟨[], []⟩
      (NTok.lit (P ++ ['+']) :: NTok.lb :: nestedTokens (X ++ [']'])) =
      .ok ⟨[], ((P ++ ['+']) ++ ('0' :: 'x' :: toHexUpper v)) ++ [']']⟩ := by
    rw [runNested_cons]
    rw [show nestedStep reader modules ⟨[], []⟩ (.lit (P ++ ['+'])) =
        .ok ⟨[], P ++ ['+']⟩ from rfl]
    show runNested reader modules ⟨[], P ++ ['+']⟩
        (NTok.lb :: nestedTokens (X ++ [']'])) = _
    rw [runNested_cons]
    have hne : P ++ ['+'] ≠ [] := by simp
    rw [show nestedStep reader modules ⟨[], P ++ ['+']⟩ .lb =
        .ok ⟨[P ++ ['+']], ['[']⟩ from by simp [nestedStep, hne]]
    exact hmid
  rw [hrun1]
  show resolve_single_level_address
      (((P ++ ['+']) ++ ('0' :: 'x' :: toHexUpper v)) ++ [']']) modules = _
  rw [resolve_single_append_rb, List.append_assoc]
  rfl

/-- Claim C4, witness: the theorem applied with prefix `a`, inner
expression `5` (address 5) and a reader mapping 5 to 7. -/
theorem C4_witness :
    resolve_single_level_address ['5'] [] = .ok 5 ∧
    (fun a : Nat => if a = 5 then (.ok 7 : Except String Nat) else .error "u") 5 = .ok 7 ∧
    resolve_nested_address (fun a : Nat => if a = 5 then .ok 7 else .error "u")
      (['a'] ++ '+' :: '[' :: (['5'] ++ [']'])) [] =
      resolve_single_level_address (['a'] ++ '+' :: '0' :: 'x' :: toHexUpper 7) [] :=
  ⟨by decide, by decide,
   C4_prefix_preserved _ [] ['a'] ['5'] 5 7 (by decide) (by decide) (by decide) (by decide)⟩

/-- Claim C5, counterexample: a module record whose name is not lexable as
one operand token is not found.  With the table `[(a b, 5)]`, the
expression `a b` (exactly the record's name) lexes as two operands `a` and
`b`, both parsed as hex (10 and 11), so resolution yields 21, not the base
5 the claim requires. -/
theorem C5_counterexample :
    resolve_single_level_address ['a', ' ', 'b'] [⟨some ['a', ' ', 'b'], some 5⟩] = .ok 21 ∧
    resolve_single_level_address ['a', ' ', 'b'] [⟨some ['a', ' ', 'b'], some 5⟩] ≠ .ok 5 := by
  refine ⟨by decide, by decide⟩

/-- Claim C5, amended: provided the queried expression lexes as a single
sign-less operand equal to its own text, and the record is the first in
table order whose (string) name matches the query up to ASCII case, and the
record's base is an unsigned 64-bit value, resolving the query yields
exactly that record's base. -/
theorem C5_amended (pre post : List ModuleRec) (m : ModuleRec)
    (name query : List Char) (b : Nat)
    (hname : m.modulename = some name) (hbase : m.base = some b)
    (hcase : eqIgnoreAsciiCase query name = true)
    (hfirst : ∀ m' ∈ pre, moduleNameMatches query m' = false)
    (htok : scanTokens query = [⟨none, query⟩]) :
    resolve_single_level_address query (pre ++ m :: post) = .ok b := by
  have hfind : (pre ++ m :: post).find? (moduleNameMatches query) = some m := by
    have hm : moduleNameMatches query m = true := by
      unfold moduleNameMatches
      rw [hname]
      exact hcase
    clear htok
    induction pre with
    | nil =>
      rw [List.nil_append]
      exact List.find?_cons_of_pos _ hm
    | cons m' pre' ih =>
      have hm' : moduleNameMatches query m' = false := hfirst m' (List.mem_cons_self m' pre')
      rw [List.cons_append, List.find?_cons_of_neg _ (by simp [hm'])]
      exact ih (fun x hx => hfirst x (List.mem_cons_of_mem m' hx))
  unfold resolve_single_level_address
  rw [htok]
  show (match tokenValue query (pre ++ m :: post) with
        | Except.error e => Except.error e
        | Except.ok v => evalToks (pre ++ m :: post) [] v false) = Except.ok b
  have htv : tokenValue query (pre ++ m :: post) = .ok b := by
    have h2 : tokenValue query (pre ++ m :: post) =
        (match m.base with
         | some w => (Except.ok w : Except String Nat)
         | none => Except.error "Invalid base address") := by
      unfold tokenValue
      rw [hfind]
    rw [h2, hbase]
  rw [htv]
  rfl

/-- Claim C5, witness: the amended statement for a table whose single
record is named `LIB.so` with base 4096, queried with the case variation
`lib.SO`. -/
theorem C5_witness :
    (⟨some "LIB.so".toList, some 4096⟩ : ModuleRec).modulename = some "LIB.so".toList ∧
    eqIgnoreAsciiCase "lib.SO".toList "LIB.so".toList = true ∧
    scanTokens "lib.SO".toList = [⟨none, "lib.SO".toList⟩] ∧
    resolve_single_level_address "lib.SO".toList
      ([] ++ (⟨some "LIB.so".toList, some 4096⟩ : ModuleRec) :: []) = .ok 4096 :=
  ⟨rfl, by decide, by decide,
   C5_amended [] [] ⟨some "LIB.so".toList, some 4096⟩ "LIB.so".toList "lib.SO".toList 4096
     rfl rfl (by decide) (by intro x hx; exact absurd hx (by simp)) (by decide)⟩

/-- Claim C6, counterexample: the operand character class of the regex
contains the hyphen, so `0x10-4` lexes as the single operand `0x10-4`,
which fails hexadecimal parsing: resolution errors instead of producing
the wrapping difference 12, even though both operands evaluate on their
own. -/
theorem C6_counterexample :
    resolve_single_level_address ['0', 'x', '1', '0'] [] = .ok 16 ∧
    resolve_single_level_address ['4'] [] = .ok 4 ∧
    resolve_single_level_address ['0', 'x', '1', '0', '-', '4'] [] =
      .error ("Invalid number: " ++ String.mk ['0', 'x', '1', '0', '-', '4']) ∧
    resolve_single_level_address ['0', 'x', '1', '0', '-', '4'] [] ≠ .ok 12 := by
  refine ⟨by decide, by decide, by decide, by decide⟩

/-- Claim C6, amended: when the expression lexes as two operands `A` and
`B` with values `vA` and `vB`, the result is the wrapping sum
`(vA + vB) mod 2^64` when the second operand's sign capture is `+` or
absent, and the wrapping difference `(vA - vB) mod 2^64` when it is `-`.
An expression written `A-B` only lexes this way when the lexer separates
the `-` from `A` (for example after a dot segment such as a module name);
when `A` is a plain hex or decimal literal, `A-B` lexes as the single
operand `A-B` and resolution yields an `Invalid number` error. -/
theorem C6_amended (modules : List ModuleRec) (addr A B : List Char)
    (s1 s2 : Option Char) (vA vB : Nat)
    (hlex : scanTokens addr = [⟨s1, A⟩, ⟨s2, B⟩])
    (hA : tokenValue A modules = .ok vA)
    (hB : tokenValue B modules = .ok vB)
    (hvB : vB < u64Mod) :
    ((s2 = none ∨ s2 = some '+') →
      resolve_single_level_address addr modules = .ok ((vA + vB) % u64Mod)) ∧
    (s2 = some '-' →
      resolve_single_level_address addr modules = .ok (((u64Mod + vA) - vB) % u64Mod)) := by
  have hstart : ∀ w : Except String Nat,
      (match tokenValue B modules with
       | Except.error e => Except.error e
       | Except.ok v =>
         let op := s2.getD '+'
         if op = '+' then evalToks modules [] ((vA + v) % u64Mod) false
         else if op = '-' then
           evalToks modules [] ((vA + (u64Mod - v % u64Mod)) % u64Mod) false
         else Except.error ("Invalid operation: " ++ String.mk [op])) = w →
      resolve_single_level_address addr modules = w := by
    intro w hw
    unfold resolve_single_level_address
    rw [hlex]
    show (match tokenValue A modules with
          | Except.error e => Except.error e
          | Except.ok v => evalToks modules [⟨s2, B⟩] v false) = w
    rw [hA]
    exact hw
  constructor
  · intro hs2
    apply hstart
    rw [hB]
    rcases hs2 with h | h <;> rw [h] <;> rfl
  · intro h
    apply hstart
    rw [hB, h]
    show Except.ok ((vA + (u64Mod - vB % u64Mod)) % u64Mod) = _
    have hmod : vB % u64Mod = vB := Nat.mod_eq_of_lt hvB
    rw [hmod]
    have hle : vB ≤ u64Mod := Nat.le_of_lt hvB
    congr 1
    congr 1
    omega

/-- Claim C6, witness: the amended statement for `0x10+0x4` (wrapping sum)
and for `lib.so-0x4` (wrapping difference, possible because the dot segment
ends the first operand before the `-`). -/
theorem C6_witness :
    scanTokens "0x10+0x4".toList = [⟨none, "0x10".toList⟩, ⟨some '+', "0x4".toList⟩] ∧
    resolve_single_level_address "0x10+0x4".toList [] = .ok ((16 + 4) % u64Mod) ∧
    resolve_single_level_address "lib.so-0x4".toList [⟨some "lib.so".toList, some 4096⟩] =
      .ok (((u64Mod + 4096) - 4) % u64Mod) :=
  ⟨by decide,
   (C6_amended [] "0x10+0x4".toList "0x10".toList "0x4".toList none (some '+') 16 4
     (by decide) (by decide) (by decide) (by decide)).1 (Or.inr rfl),
   (C6_amended [⟨some "lib.so".toList, some 4096⟩] "lib.so-0x4".toList
     "lib.so".toList "0x4".toList none (some '-') 4096 4
     (by decide) (by decide) (by decide) (by decide)).2 rfl⟩

/-- Claim C7: an expression lexing to zero operands resolves to address 0,
and the sign capture of the first operand is never consulted: two
expressions lexing to the same operand list up to the first operand's sign
resolve identically. -/
theorem C7_first_sign_ignored (modules : List ModuleRec) :
    (∀ addr : List Char, scanTokens addr = [] →
      resolve_single_level_address addr modules = .ok 0) ∧
    (∀ (addr addr' : List Char) (s1 s2 : Option Char) (part : List Char) (ts : List Tok),
      scanTokens addr = ⟨s1, part⟩ :: ts → scanTokens addr' = ⟨s2, part⟩ :: ts →
      resolve_single_level_address addr modules = resolve_single_level_address addr' modules) := by
  constructor
  · intro addr h
    unfold resolve_single_level_address
    rw [h]
    rfl
  · intro addr addr' s1 s2 part ts h h'
    unfold resolve_single_level_address
    rw [h, h']
    show (match tokenValue part modules with
          | Except.error e => Except.error e
          | Except.ok v => evalToks modules ts v false) =
        (match tokenValue part modules with
          | Except.error e => Except.error e
          | Except.ok v => evalToks modules ts v false)
    rfl

/-- Claim C7, witness: `(` lexes to zero operands and resolves to 0, and
`-10` resolves to the same address as `10` (the leading sign of the first
operand is ignored). -/
theorem C7_witness :
    resolve_single_level_address ['('] [] = .ok 0 ∧
    resolve_single_level_address ['-', '1', '0'] [] =
      resolve_single_level_address ['1', '0'] [] :=
  ⟨(C7_first_sign_ignored []).1 ['('] (by decide),
   (C7_first_sign_ignored []).2 ['-', '1', '0'] ['1', '0'] (some '-') none ['1', '0'] []
     (by decide) (by decide)⟩

/-- Claim C8: on input with balanced brackets, at every successfully
reached intermediate point of the scan the pending-prefix stack is no
deeper than the bracket nesting depth of the tokens consumed so far, and
when the whole scan succeeds the stack is empty (so the final evaluation
sees the fully substituted accumulator). -/
theorem C8_stack_invariant (reader : Nat → Except String Nat)
    (modules : List ModuleRec) (addr : List Char)
    (hbal : runDepth (nestedTokens addr) 0 = some 0) :
    (∀ (p s : List NTok) (dp : Nat) (st : NState),
      nestedTokens addr = p ++ s → runDepth p 0 = some dp →
      runNested reader modules ⟨[], []⟩ p = .ok st → st.stack.length ≤ dp) ∧
    (∀ st : NState, runNested reader modules ⟨[], []⟩ (nestedTokens addr) = .ok st →
      st.stack = []) := by
  constructor
  · intro p s dp st hsplit hdp hrun
    have hlit : ∀ l : List Char, NTok.lit l ∈ p → l ≠ [] := by
      intro l hl
      exact nestedTokens_lit_ne_nil addr l (by rw [hsplit]; exact List.mem_append_left s hl)
    exact (runNested_inv reader modules p 0 dp ⟨[], []⟩ st hdp hlit (by simp)
      (fun _ => rfl) hrun).1
  · intro st hrun
    have h := (runNested_inv reader modules (nestedTokens addr) 0 0 ⟨[], []⟩ st hbal
      (nestedTokens_lit_ne_nil addr) (by simp) (fun _ => rfl) hrun).1
    exact List.length_eq_zero.1 (Nat.le_zero.1 h)

/-- Claim C8, witness: the invariant applied to the balanced input `[0]`
with a reader returning 0 everywhere; the prefix `[` has depth 1 and stack
depth 0, and the completed scan ends with an empty stack. -/
theorem C8_witness :
    runDepth (nestedTokens ['[', '0', ']']) 0 = some 0 ∧
    runNested (fun _ : Nat => (.ok 0 : Except String Nat)) [] ⟨[], []⟩
      (nestedTokens ['[', '0', ']']) = .ok ⟨[], ['0', 'x', '0', ']']⟩ ∧
    (⟨[], ['0', 'x', '0', ']']⟩ : NState).stack = [] :=
  ⟨by decide, by decide,
   (C8_stack_invariant (fun _ => .ok 0) [] ['[', '0', ']'] (by decide)).2
     ⟨[], ['0', 'x', '0', ']']⟩ (by decide)⟩

/-- Claim C9: the `Invalid operation` branch of the reduction loop is
unreachable — the sign capture group `([-+])?` only ever produces an
absent, `+`, or `-` capture, so `resolve_single_level_address` never
returns an `Invalid operation` error, for any input and module table. -/
theorem C9_invalid_operation_unreachable (addr : List Char) (modules : List ModuleRec)
    (s : String) :
    resolve_single_level_address addr modules ≠ .error ("Invalid operation: " ++ s) := by
  intro h
  have h' : evalToks modules (scanTokens addr) 0 true =
      .error ("Invalid operation: " ++ s) := h
  have hshape := evalToks_error_shape modules (scanTokens addr) 0 true
    ("Invalid operation: " ++ s) (scanTokens_signOK addr) h'
  rcases hshape with h1 | ⟨p, h1⟩
  · exact (invalidOp_ne s).1 h1
  · exact (invalidOp_ne s).2 p h1

/-- Claim C9, witness: the statement instantiated at a concrete input. -/
theorem C9_witness :
    resolve_single_level_address ['a'] [] ≠ .error ("Invalid operation: " ++ "-") :=
  C9_invalid_operation_unreachable ['a'] [] "-"

/-- Claim C10: stripping is iterated — a non-module operand consisting of
`n` copies of `0x` followed by hexadecimal digits `d` evaluates to the
value of `d` alone; in particular `0x0x10` resolves to 16. -/
theorem C10_iterated_strip (modules : List ModuleRec) (n : Nat) (d : List Char) (v : Nat)
    (hd : ∀ c ∈ d, (hexDigitVal c).isSome = true)
    (hmod : modules.find? (moduleNameMatches (repeat0x n ++ d)) = none)
    (hparse : fromStrRadix16 d = some v) :
    tokenValue (repeat0x n ++ d) modules = .ok v ∧
    resolve_single_level_address ['0', 'x', '0', 'x', '1', '0'] [] = .ok 16 := by
  constructor
  · have h2 : tokenValue (repeat0x n ++ d) modules =
        (match fromStrRadix16 (trimStart0x (repeat0x n ++ d)) with
         | some w => (Except.ok w : Except String Nat)
         | none => Except.error ("Invalid number: " ++ String.mk (repeat0x n ++ d))) := by
      unfold tokenValue
      rw [hmod]
    rw [h2, trimStart0x_repeat n d, trimStart0x_hexdigits d hd, hparse]
  · decide

/-- Claim C10, witness: the statement at two copies of `0x` and digits
`10`, the token `0x0x10`. -/
theorem C10_witness :
    (∀ c ∈ ['1', '0'], (hexDigitVal c).isSome = true) ∧
    fromStrRadix16 ['1', '0'] = some 16 ∧
    tokenValue (repeat0x 2 ++ ['1', '0']) [] = .ok 16 :=
  ⟨by decide, by decide,
   (C10_iterated_strip [] 2 ['1', '0'] 16 (by decide) rfl (by decide)).1⟩
